import Mathlib

/-
Verification of the index-assignment analyzer pass
(`sql/analyzer/assign_indexes.go`) of the gitbase repository.

The Go source is embedded shallowly: expressions, plan nodes and
index lookups become inductive types; the catalog's reference counting is
made observable through an explicit event log (one `borrow` event per
successful `IndexByExpression`, one `release` event per `ReleaseIndex`
call).  Go `error` returns and runtime panics are modelled by the
`Outcome` type.  Functions missing from the source tree (the catalog and
the index implementations) are modelled from the specification and marked
as such in their doc comments.
-/

namespace Gitbase

/-- Scalar SQL values. -/
inductive Val where
  | intV : Int → Val
  | strV : String → Val
deriving DecidableEq

/-- Result of evaluating an expression: either a scalar `interface` value
or a `[]interface` slice (a tuple, as produced by IN right-hand sides). -/
inductive EvalV where
  | val : Val → EvalV
  | tup : List Val → EvalV
deriving DecidableEq

/-- Shallow embedding of the `sql.Expression` variants the pass consumes.
`col` is `expression.GetField` (carrying its table, name and expression
hash), `lit` a literal whose evaluation succeeds, `badLit` a
column-free expression whose evaluation fails, and `other` stands for
the variants that are opaque to the pass. -/
inductive Expr where
  | col (table name : String) (hash : Nat)
  | lit (v : EvalV)
  | badLit
  | andE (l r : Expr)
  | orE (l r : Expr)
  | eq (l r : Expr)
  | lt (l r : Expr)
  | gt (l r : Expr)
  | lte (l r : Expr)
  | gte (l r : Expr)
  | between (v lo hi : Expr)
  | inE (l r : Expr)
  | other (tag : Nat)
deriving DecidableEq

/-- Structural size of an expression, used as recursion fuel. -/
def Expr.size : Expr → Nat
  | .col .. => 1
  | .lit _ => 1
  | .badLit => 1
  | .other _ => 1
  | .andE l r => l.size + r.size + 1
  | .orE l r => l.size + r.size + 1
  | .eq l r => l.size + r.size + 1
  | .lt l r => l.size + r.size + 1
  | .gt l r => l.size + r.size + 1
  | .lte l r => l.size + r.size + 1
  | .gte l r => l.size + r.size + 1
  | .between v lo hi => v.size + lo.size + hi.size + 1
  | .inE l r => l.size + r.size + 1

/-- Mirrors `containsColumns`: true iff a `GetField` occurs in the subtree. -/
def containsColumns : Expr → Bool
  | .col .. => true
  | .lit _ => false
  | .badLit => false
  | .other _ => false
  | .andE l r => containsColumns l || containsColumns r
  | .orE l r => containsColumns l || containsColumns r
  | .eq l r => containsColumns l || containsColumns r
  | .lt l r => containsColumns l || containsColumns r
  | .gt l r => containsColumns l || containsColumns r
  | .lte l r => containsColumns l || containsColumns r
  | .gte l r => containsColumns l || containsColumns r
  | .between v lo hi => containsColumns v || containsColumns lo || containsColumns hi
  | .inE l r => containsColumns l || containsColumns r

/-- Mirrors `isEvaluable`: an expression with no column references. -/
def isEvaluable (e : Expr) : Bool := !containsColumns e

/-- Mirrors `isColumn`: the expression is exactly a `GetField`. -/
def isColumn : Expr → Bool
  | .col .. => true
  | _ => false

/-- Modelled from the spec: evaluation of an evaluable expression in an
empty context (`Eval(sql.NewEmptyContext(), nil)`).  Literals evaluate
to their value, `badLit` models an expression whose evaluation fails;
the remaining variants are opaque to the claims and evaluate to an
error as well. -/
def eval : Expr → Except Unit EvalV
  | .lit v => .ok v
  | _ => .error ()

/-- Mirrors `splitExpression`: flatten a conjunction into its conjuncts. -/
def splitExpression : Expr → List Expr
  | .andE l r => splitExpression l ++ splitExpression r
  | e => [e]

/-- Modelled from the spec: the hash `sql.NewExpressionHash` assigns to an
expression.  Only column expressions are registered with catalog indexes
in this model, so they carry their hash explicitly. -/
def exprHash : Expr → Nat
  | .col _ _ h => h
  | _ => 0

/-- Shallow embedding of `sql.Index`: table, ordered key hashes, and the
optional `AscendIndex` / `DescendIndex` capabilities. -/
structure Index where
  id : Nat
  table : String
  exprHashes : List Nat
  ascend : Bool
  descend : Bool
deriving DecidableEq

/-- Modelled from the spec: the catalog is the set of declared indexes. -/
structure Catalog where
  indexes : List Index
deriving DecidableEq

/-- Modelled from the spec: `Catalog.IndexByExpression` returns the first
index whose key-hash list matches the given expressions exactly, borrowing
it on success (the borrow event is emitted by the caller in this model). -/
def indexByExpression (c : Catalog) (es : List Expr) : Option Index :=
  c.indexes.find? (fun i => decide (i.exprHashes = es.map exprHash))

/-- Reference-counting events observed at the catalog: `borrow` for a
successful `IndexByExpression`, `release` for a `ReleaseIndex` call. -/
inductive Event where
  | borrow (id : Nat)
  | release (id : Nat)
deriving DecidableEq

/-- Shallow embedding of `sql.IndexLookup` values.  The leaf constructors
record which index method produced the lookup; `union` and
`intersection` are the `SetOperations` combinators.  The index methods
themselves are modelled from the spec as always succeeding. -/
inductive Lookup where
  | get (idxId : Nat) (vals : List EvalV)
  | ascendRange (idxId : Nat) (lo hi : List EvalV)
  | descendRange (idxId : Nat) (hi lo : List EvalV)
  | ascendGte (idxId : Nat) (vals : List EvalV)
  | ascendLt (idxId : Nat) (vals : List EvalV)
  | descendGt (idxId : Nat) (vals : List EvalV)
  | descendLte (idxId : Nat) (vals : List EvalV)
  | union (a b : Lookup)
  | intersection (a b : Lookup)
deriving DecidableEq

/-- Interface dispatch on lookup values: whether a lookup implements
`sql.Mergeable`, what its `IsMergeable` method answers, and whether it
implements `sql.SetOperations`.  The pass only sees lookups through
these three interface queries. -/
structure LookupOps where
  isMrg : Lookup → Bool
  mergeableWith : Lookup → Lookup → Bool
  hasSetOps : Lookup → Bool

/-- Mirrors `canMergeIndexes`: `a` implements `Mergeable`,
`a.IsMergeable(b)` holds, and `a` implements `SetOperations`. -/
def canMergeIndexes (ops : LookupOps) (a b : Lookup) : Bool :=
  ops.isMrg a && ops.mergeableWith a b && ops.hasSetOps a

/-- Mirrors the `indexLookup` struct: a lookup together with every index
involved in it. -/
structure indexLookup where
  lookup : Lookup
  indexes : List Index
deriving DecidableEq

/-- The `map[string]*indexLookup` maps are modelled as association lists
keyed by table name. -/
abbrev LMap := List (String × indexLookup)

/-- Map lookup (`m[table]`): first binding for the key. -/
def mfind : LMap → String → Option indexLookup
  | [], _ => none
  | (k, v) :: m, t => if k = t then some v else mfind m t

/-- Map key test (`_, ok := m[table]`). -/
def mcontains (m : LMap) (t : String) : Bool := (mfind m t).isSome

/-- Map deletion (`delete(m, table)`). -/
def mdelete : LMap → String → LMap
  | [], _ => []
  | (k, v) :: m, t => if k = t then mdelete m t else (k, v) :: mdelete m t

/-- Go errors surfaced by the pass: `errInvalidInRightEvaluation` and a
failed evaluation of a literal bound. -/
inductive GoErr where
  | invalidInRhs
  | evalError
deriving DecidableEq

/-- Result of running a piece of the pass: a normal result, a returned Go
error, or a runtime panic. -/
inductive Outcome (α : Type) where
  | ok : α → Outcome α
  | fail : GoErr → Outcome α
  | panicked : String → Outcome α
deriving DecidableEq

/-- Comparison kinds dispatched by `comparisonIndexLookup`. -/
inductive CmpKind where
  | eq | lt | gt | lte | gte
deriving DecidableEq

/-- Builds the comparison expression of a given kind. -/
def mkCmp : CmpKind → Expr → Expr → Expr
  | .eq, l, r => .eq l r
  | .lt, l, r => .lt l r
  | .gt, l, r => .gt l r
  | .lte, l, r => .lte l r
  | .gte, l, r => .gte l r

/-- Mirrors `comparisonIndexLookup`: capability-directed construction of
the lookup for a comparison.  `Get` is always available; the ordered
variants require `DescendIndex` or `AscendIndex` and yield no lookup
(`nil, nil` in the source) when the capability is absent. -/
def comparisonIndexLookup (k : CmpKind) (idx : Index) (values : List EvalV) : Option Lookup :=
  match k with
  | .eq => some (.get idx.id values)
  | .gt => if idx.descend then some (.descendGt idx.id values) else none
  | .gte => if idx.ascend then some (.ascendGte idx.id values) else none
  | .lt => if idx.ascend then some (.ascendLt idx.id values) else none
  | .lte => if idx.descend then some (.descendLte idx.id values) else none

/-- Mirrors `getComparisonIndex`: normalize the indexable side to the
left, borrow an index for it, evaluate the other side, and build the
lookup; on evaluation failure or missing capability the borrowed index
is released. -/
def getComparisonIndex (cat : Catalog) (k : CmpKind) (l r : Expr) :
    Outcome (Option (Index × Lookup)) × List Event :=
  let p := if !isEvaluable r then (r, l) else (l, r)
  if !isEvaluable p.1 && isEvaluable p.2 then
    match indexByExpression cat [p.1] with
    | some idx =>
      match eval p.2 with
      | .error _ => (.fail .evalError, [.borrow idx.id, .release idx.id])
      | .ok v =>
        match comparisonIndexLookup k idx [v] with
        | none => (.ok none, [.borrow idx.id, .release idx.id])
        | some lk => (.ok (some (idx, lk)), [.borrow idx.id])
    | none => (.ok none, [])
  else (.ok none, [])

/-- Mirrors `betweenIndexLookup`: requires both `AscendIndex` and
`DescendIndex`; checks `Mergeable`/`IsMergeable` on the ascending
lookup and then performs the unchecked `SetOperations` type assertion
of the source, which panics when the interface is absent. -/
def betweenIndexLookup (ops : LookupOps) (idx : Index) (upper lower : List EvalV) :
    Outcome (Option Lookup) :=
  if idx.ascend && idx.descend then
    let al := Lookup.ascendRange idx.id lower upper
    let dl := Lookup.descendRange idx.id upper lower
    if ops.isMrg al && ops.mergeableWith al dl then
      if ops.hasSetOps al then .ok (some (.union al dl))
      else .panicked "interface conversion: sql.IndexLookup is not sql.SetOperations"
    else .ok none
  else .ok none

/-- Mirrors the union loop of the IN case (`for _, v := range values[1:]`):
point-get every further element and union it in, stopping with `none`
as soon as a pairwise union is not mergeable. -/
def inUnion (ops : LookupOps) (idx : Index) : Lookup → List Val → Option Lookup
  | lk, [] => some lk
  | lk, v :: vs =>
    let lk2 := Lookup.get idx.id [.val v]
    if canMergeIndexes ops lk lk2 then inUnion ops idx (.union lk lk2) vs
    else none

/-- Mirrors the OR merge loops of `getIndexes`: tables present in both
maps are unioned when mergeable and otherwise keep the left entry
(without any release); tables present in one map pass through. -/
def orIndexes (ops : LookupOps) (right : LMap) : LMap → LMap
  | [] => []
  | (t, il) :: rest =>
    let tail := orIndexes ops right rest
    match mfind right t with
    | some il2 =>
      if canMergeIndexes ops il.lookup il2.lookup then
        (t, ⟨.union il.lookup il2.lookup, il.indexes ++ il2.indexes⟩) :: tail
      else (t, il) :: tail
    | none => (t, il) :: tail

/-- Second OR loop: append the right-hand entries whose table the first
loop did not place in the result. -/
def orResult (ops : LookupOps) (left right : LMap) : LMap :=
  let res := orIndexes ops right left
  res ++ right.filter (fun p => !mcontains res p.1)

/-- First loop of `indexesIntersection`: merge shared tables when
mergeable, otherwise keep the left entry and release every index of the
right entry. -/
def interLoop (ops : LookupOps) (right : LMap) : LMap → LMap × List Event
  | [] => ([], [])
  | (t, il) :: rest =>
    let tail := interLoop ops right rest
    match mfind right t with
    | some il2 =>
      if canMergeIndexes ops il.lookup il2.lookup then
        ((t, ⟨.intersection il.lookup il2.lookup, il.indexes ++ il2.indexes⟩) :: tail.1, tail.2)
      else ((t, il) :: tail.1, il2.indexes.map (fun i => .release i.id) ++ tail.2)
    | none => ((t, il) :: tail.1, tail.2)

/-- Mirrors `indexesIntersection`: the merge loop followed by the loop
appending right-hand entries for tables not yet in the result. -/
def indexesIntersection (ops : LookupOps) (left right : LMap) : LMap × List Event :=
  let res := interLoop ops right left
  (res.1 ++ right.filter (fun p => !mcontains res.1 p.1), res.2)

/-- Mirrors the `columnExpr` struct: the column, the value side (nil for
BETWEEN) and the originating expression. -/
structure columnExpr where
  col : Expr
  val : Option Expr
  expr : Expr
deriving DecidableEq

/-- Discriminates the runtime type of an expression, as
`reflect.TypeOf` does in `groupExpressionsByOperator`. -/
def opTag : Expr → Nat
  | .col .. => 0
  | .lit _ => 1
  | .badLit => 2
  | .andE .. => 3
  | .orE .. => 4
  | .eq .. => 5
  | .lt .. => 6
  | .gt .. => 7
  | .lte .. => 8
  | .gte .. => 9
  | .between .. => 10
  | .inE .. => 11
  | .other _ => 12

/-- Appends a `columnExpr` to the entry of its table, creating the entry
if absent (`result[col.Table()] = append(...)`). -/
def tput (m : List (String × List columnExpr)) (t : String) (c : columnExpr) :
    List (String × List columnExpr) :=
  match m with
  | [] => [(t, [c])]
  | (k, cs) :: rest =>
    if k = t then (k, cs ++ [c]) :: rest else (k, cs) :: tput rest t c

/-- Mirrors `columnExprsByTable`: classify each conjunct, normalize the
column side of comparisons to the left, and group the extracted
`columnExpr` records by the column's table. -/
def columnExprsByTable (exprs : List Expr) : List (String × List columnExpr) :=
  exprs.foldl
    (fun m e =>
      match e with
      | .eq l r => cmpEntry m (.eq l r) l r
      | .gt l r => cmpEntry m (.gt l r) l r
      | .lt l r => cmpEntry m (.lt l r) l r
      | .gte l r => cmpEntry m (.gte l r) l r
      | .lte l r => cmpEntry m (.lte l r) l r
      | .between v lo hi =>
        if !isEvaluable hi || !isEvaluable lo || isEvaluable v then m
        else
          match v with
          | .col t n h => tput m t ⟨.col t n h, none, .between v lo hi⟩
          | _ => m
      | _ => m)
    []
where
  /-- Handles one comparison conjunct of `columnExprsByTable`. -/
  cmpEntry (m : List (String × List columnExpr)) (e l r : Expr) :
      List (String × List columnExpr) :=
    let p := if !isEvaluable r then (r, l) else (l, r)
    if !isEvaluable p.2 then m
    else
      match p.1 with
      | .col t n h => tput m t ⟨.col t n h, some p.2, e⟩
      | _ => m

/-- Inserts a `columnExpr` into the first group whose representative has
the same runtime type, appending a new group otherwise. -/
def insertByOp : List (List columnExpr) → columnExpr → List (List columnExpr)
  | [], e => [[e]]
  | g :: gs, e =>
    match g with
    | g0 :: _ => if opTag g0.expr = opTag e.expr then (g ++ [e]) :: gs else g :: insertByOp gs e
    | [] => [] :: insertByOp gs e

/-- Mirrors `groupExpressionsByOperator`: partition by runtime type,
preserving first-seen order. -/
def groupExpressionsByOperator (exprs : List columnExpr) : List (List columnExpr) :=
  exprs.foldl insertByOp []

/-- Mirrors `findColumnByHash`: first `columnExpr` whose column hashes to
the given expression hash. -/
def findColumnByHash (cols : List columnExpr) (h : Nat) : Option columnExpr :=
  cols.find? (fun c => decide (exprHash c.col = h))

/-- Modelled from the spec: `Catalog.ExpressionsWithIndexes` returns, for
each index whose key columns are all among the given columns, the key's
column expressions in the index's declared order. -/
def expressionsWithIndexes (c : Catalog) (cols : List Expr) : List (List Expr) :=
  c.indexes.filterMap (fun i =>
    let sel := i.exprHashes.filterMap (fun h => cols.find? (fun col => decide (exprHash col = h)))
    if sel.length = i.exprHashes.length then some sel else none)

/-- Mirrors the selection loop of `getMultiColumnIndexes`: keep the first
candidate strictly longer than everything seen so far. -/
def selectLongest (exprList : List (List Expr)) : List Expr :=
  exprList.foldl (fun selected l => if selected.length < l.length then l else selected) []

/-- Collects, for each key hash of the index, the evaluated value of the
matching comparison conjunct, marking the conjunct as used; mirrors the
comparison branch of `getMultiColumnIndexForExpressions` (a missing
column or a nil value expression is a nil dereference in the source). -/
def collectVals (exprs : List columnExpr) : List Nat → List Expr →
    Outcome (List EvalV) × List Expr
  | [], used => (.ok [], used)
  | h :: hs, used =>
    match findColumnByHash exprs h with
    | none => (.panicked "runtime error: invalid memory address or nil pointer dereference", used)
    | some c =>
      let used2 := if c.expr ∈ used then used else used ++ [c.expr]
      match c.val with
      | none => (.panicked "runtime error: invalid memory address or nil pointer dereference", used2)
      | some ve =>
        match eval ve with
        | .error _ => (.fail .evalError, used2)
        | .ok v =>
          match collectVals exprs hs used2 with
          | (.ok vs, u3) => (.ok (v :: vs), u3)
          | bad => bad

/-- Collects, for each key hash of the index, the evaluated lower and
upper bounds of the matching BETWEEN conjunct, marking it used; mirrors
the BETWEEN branch of `getMultiColumnIndexForExpressions` (the type
assertion to `*expression.Between` panics on any other type). -/
def collectBounds (exprs : List columnExpr) : List Nat → List Expr →
    Outcome (List EvalV × List EvalV) × List Expr
  | [], used => (.ok ([], []), used)
  | h :: hs, used =>
    match findColumnByHash exprs h with
    | none => (.panicked "runtime error: invalid memory address or nil pointer dereference", used)
    | some c =>
      let used2 := if c.expr ∈ used then used else used ++ [c.expr]
      match c.expr with
      | .between _ clo chi =>
        match eval clo with
        | .error _ => (.fail .evalError, used2)
        | .ok lv =>
          match eval chi with
          | .error _ => (.fail .evalError, used2)
          | .ok uv =>
            match collectBounds exprs hs used2 with
            | (.ok (ls, us), u3) => (.ok (lv :: ls, uv :: us), u3)
            | (.fail e, u3) => (.fail e, u3)
            | (.panicked s, u3) => (.panicked s, u3)
      | _ => (.panicked "interface conversion: sql.Expression is not *expression.Between", used2)

/-- Mirrors `getMultiColumnIndexForExpressions`: borrow the index for the
selected column sequence, locate the conjunct of the first key column,
dispatch on its kind, evaluate every key position and build the
composite lookup. -/
def getMultiColumnIndexForExpressions (ops : LookupOps) (cat : Catalog)
    (selected : List Expr) (exprs : List columnExpr) (used : List Expr) :
    Option Index × Option Lookup × Outcome Unit × List Expr × List Event :=
  match indexByExpression cat selected with
  | none => (none, none, .ok (), used, [])
  | some index =>
    let ev0 : List Event := [.borrow index.id]
    match selected with
    | [] => (some index, none, .panicked "runtime error: index out of range", used, ev0)
    | s0 :: _ =>
      match exprs.find? (fun e => decide (e.col = s0)) with
      | none => (some index, none, .ok (), used, ev0)
      | some fe =>
        match fe.expr with
        | .eq _ _ => mcComparison .eq index exprs used ev0
        | .lt _ _ => mcComparison .lt index exprs used ev0
        | .gt _ _ => mcComparison .gt index exprs used ev0
        | .lte _ _ => mcComparison .lte index exprs used ev0
        | .gte _ _ => mcComparison .gte index exprs used ev0
        | .between _ _ _ =>
          match collectBounds exprs index.exprHashes used with
          | (.ok (lowers, uppers), used2) =>
            match betweenIndexLookup ops index uppers lowers with
            | .ok lk => (some index, lk, .ok (), used2, ev0)
            | .fail e => (some index, none, .fail e, used2, ev0)
            | .panicked s => (some index, none, .panicked s, used2, ev0)
          | (.fail e, used2) => (some index, none, .fail e, used2, ev0)
          | (.panicked s, used2) => (some index, none, .panicked s, used2, ev0)
        | _ => (some index, none, .ok (), used, ev0)
where
  /-- Comparison branch of `getMultiColumnIndexForExpressions`. -/
  mcComparison (k : CmpKind) (index : Index)
      (exprs : List columnExpr) (used : List Expr) (ev0 : List Event) :
      Option Index × Option Lookup × Outcome Unit × List Expr × List Event :=
    match collectVals exprs index.exprHashes used with
    | (.ok values, used2) =>
      (some index, comparisonIndexLookup k index values, .ok (), used2, ev0)
    | (.fail e, used2) => (some index, none, .fail e, used2, ev0)
    | (.panicked s, used2) => (some index, none, .panicked s, used2, ev0)

/-- Processes one `(table, operator)` group of `getMultiColumnIndexes`:
ask the catalog for candidate column sequences, select the longest, and
when one exists build the composite lookup, releasing the index when no
lookup results and intersecting into the running result otherwise. -/
def mcGroupStep (ops : LookupOps) (cat : Catalog) (table : String)
    (exps : List columnExpr) (res : LMap) (used : List Expr) :
    Outcome (LMap × List Expr) × List Event :=
  let cols := exps.map (fun e => e.col)
  let exprList := expressionsWithIndexes cat cols
  let selected := selectLongest exprList
  if 0 < selected.length then
    match getMultiColumnIndexForExpressions ops cat selected exps used with
    | (index?, lookup?, .panicked s, _, ev) =>
      let _ := index?
      let _ := lookup?
      (.panicked s, ev)
    | (index?, _, .fail e, _, ev) =>
      (.fail e, ev ++ (match index? with | some i => [.release i.id] | none => []))
    | (index?, none, .ok _, used2, ev) =>
      (.ok (res, used2), ev ++ (match index? with | some i => [.release i.id] | none => []))
    | (index?, some lk, .ok _, used2, ev) =>
      let entry : indexLookup := ⟨lk, (match index? with | some i => [i] | none => [])⟩
      if mcontains res table then
        let inter := indexesIntersection ops res [(table, entry)]
        (.ok (inter.1, used2), ev ++ inter.2)
      else (.ok (res ++ [(table, entry)], used2), ev)
  else (.ok (res, used), [])

/-- Iterates `mcGroupStep` over the operator groups of one table. -/
def mcGroups (ops : LookupOps) (cat : Catalog) (table : String) :
    List (List columnExpr) → LMap → List Expr → List Event →
    Outcome (LMap × List Expr) × List Event
  | [], res, used, ev => (.ok (res, used), ev)
  | g :: gs, res, used, ev =>
    match mcGroupStep ops cat table g res used with
    | (.ok (res2, used2), ev2) => mcGroups ops cat table gs res2 used2 (ev ++ ev2)
    | (.fail e, ev2) => (.fail e, ev ++ ev2)
    | (.panicked s, ev2) => (.panicked s, ev ++ ev2)

/-- Iterates over the tables of `columnExprsByTable`. -/
def mcTables (ops : LookupOps) (cat : Catalog) :
    List (String × List columnExpr) → LMap → List Expr → List Event →
    Outcome (LMap × List Expr) × List Event
  | [], res, used, ev => (.ok (res, used), ev)
  | (table, exps) :: rest, res, used, ev =>
    match mcGroups ops cat table (groupExpressionsByOperator exps) res used ev with
    | (.ok (res2, used2), ev2) => mcTables ops cat rest res2 used2 ev2
    | bad => bad

/-- Mirrors `getMultiColumnIndexes`: group the conjuncts per table and
per comparison kind, and build one composite lookup per group. -/
def getMultiColumnIndexes (ops : LookupOps) (cat : Catalog)
    (exprs : List Expr) (used : List Expr) :
    Outcome (LMap × List Expr) × List Event :=
  mcTables ops cat (columnExprsByTable exprs) [] used []

/-- Folds per-conjunct `getIndexes` results into the multi-column result
via `indexesIntersection`, skipping conjuncts already marked used and
aborting on the first error (later conjuncts are then not evaluated, so
their events do not occur). -/
def andFold (ops : LookupOps) (used : List Expr) :
    LMap → List Event → List (Expr × (Outcome LMap × List Event)) →
    Outcome LMap × List Event
  | res, ev, [] => (.ok res, ev)
  | res, ev, (e, sub) :: rest =>
    if e ∈ used then andFold ops used res ev rest
    else
      match sub with
      | (.ok m, ev2) =>
        let inter := indexesIntersection ops res m
        andFold ops used inter.1 (ev ++ ev2 ++ inter.2) rest
      | (.fail er, ev2) => (.fail er, ev ++ ev2)
      | (.panicked s, ev2) => (.panicked s, ev ++ ev2)

/-- Fueled engine of `getIndexes`; the fuel strictly exceeds the
recursion depth whenever it is at least the expression's size, which the
`getIndexes` wrapper guarantees, so the fuel-exhaustion branch is
unreachable from the wrapper. -/
def getIndexesF (ops : LookupOps) (cat : Catalog) : Nat → Expr → Outcome LMap × List Event
  | 0, _ => (.panicked "out of fuel", [])
  | fuel + 1, e =>
    match e with
    | .orE l r =>
      match getIndexesF ops cat fuel l with
      | (.ok li, ev1) =>
        match getIndexesF ops cat fuel r with
        | (.ok ri, ev2) => (.ok (orResult ops li ri), ev1 ++ ev2)
        | (.fail er, ev2) => (.fail er, ev1 ++ ev2)
        | (.panicked s, ev2) => (.panicked s, ev1 ++ ev2)
      | bad => bad
    | .inE l r =>
      if !isEvaluable l && isEvaluable r then
        match indexByExpression cat [l] with
        | some idx =>
          match eval r with
          | .error _ => (.fail .evalError, [.borrow idx.id, .release idx.id])
          | .ok value =>
            match value with
            | .tup values =>
              match values with
              | [] => (.panicked "runtime error: index out of range", [.borrow idx.id, .release idx.id])
              | v0 :: vrest =>
                match inUnion ops idx (.get idx.id [.val v0]) vrest with
                | none => (.ok [], [.borrow idx.id, .release idx.id])
                | some lk => (.ok [(idx.table, ⟨lk, [idx]⟩)], [.borrow idx.id])
            | _ => (.fail .invalidInRhs, [.borrow idx.id, .release idx.id])
        | none => (.ok [], [])
      else (.ok [], [])
    | .eq l r => cmpCase cat .eq l r
    | .lt l r => cmpCase cat .lt l r
    | .gt l r => cmpCase cat .gt l r
    | .lte l r => cmpCase cat .lte l r
    | .gte l r => cmpCase cat .gte l r
    | .between v lo hi =>
      if !isEvaluable v && isEvaluable hi && isEvaluable lo then
        match indexByExpression cat [v] with
        | some idx =>
          match eval hi with
          | .error _ => (.fail .evalError, [.borrow idx.id, .release idx.id])
          | .ok upper =>
            match eval lo with
            | .error _ => (.fail .evalError, [.borrow idx.id, .release idx.id])
            | .ok lower =>
              match betweenIndexLookup ops idx [upper] [lower] with
              | .panicked s => (.panicked s, [.borrow idx.id, .release idx.id])
              | .fail er => (.fail er, [.borrow idx.id, .release idx.id])
              | .ok none => (.ok [], [.borrow idx.id, .release idx.id])
              | .ok (some lk) => (.ok [(idx.table, ⟨lk, [idx]⟩)], [.borrow idx.id])
        | none => (.ok [], [])
      else (.ok [], [])
    | .andE l r =>
      let exprs := splitExpression (.andE l r)
      match getMultiColumnIndexes ops cat exprs [] with
      | (.ok (res, used), ev) =>
        andFold ops used res ev (exprs.map (fun e2 => (e2, getIndexesF ops cat fuel e2)))
      | (.fail er, ev) => (.fail er, ev)
      | (.panicked s, ev) => (.panicked s, ev)
    | _ => (.ok [], [])
where
  /-- Comparison case of `getIndexes`. -/
  cmpCase (cat : Catalog) (k : CmpKind) (l r : Expr) :
      Outcome LMap × List Event :=
    match getComparisonIndex cat k l r with
    | (.ok none, ev) => (.ok [], ev)
    | (.ok (some (idx, lk)), ev) => (.ok [(idx.table, ⟨lk, [idx]⟩)], ev)
    | (.fail er, ev) => (.fail er, ev)
    | (.panicked s, ev) => (.panicked s, ev)

/-- Mirrors `getIndexes`: dispatch on the root of the filter predicate
and produce the per-table lookup map plus the observed catalog events. -/
def getIndexes (ops : LookupOps) (cat : Catalog) (e : Expr) : Outcome LMap × List Event :=
  getIndexesF ops cat e.size e

/-- Shallow embedding of the plan nodes the pass inspects: `filter` is
`plan.Filter`, `table` a scan node whose flag records the
`sql.Indexable` capability, `cross` a generic binary inner node,
`wrapped` the `indexable` placeholder produced by the pass, and
`indexableTable` a `plan.IndexableTable`.  All modelled nodes are
resolved, so the `Resolved` guard of `assignIndexes` always passes. -/
inductive Node where
  | filter (pred : Expr) (child : Node)
  | table (name : String) (ix : Bool)
  | cross (l r : Node)
  | wrapped (il : indexLookup) (name : String)
  | indexableTable (name : String)
deriving DecidableEq

/-- Names of the indexable, not-yet-wrapped table scans of a plan
(`wrapped` has no children, as `indexable.Children` returns nil). -/
def ixNames : Node → List String
  | .filter _ c => ixNames c
  | .table name ix => if ix then [name] else []
  | .cross l r => ixNames l ++ ixNames r
  | .wrapped _ _ => []
  | .indexableTable _ => []

/-- Ids of the indexes embedded in the plan inside `indexable` wrappers. -/
def embeddedIndexIds : Node → List Nat
  | .filter _ c => embeddedIndexIds c
  | .table _ _ => []
  | .cross l r => embeddedIndexIds l ++ embeddedIndexIds r
  | .wrapped il _ => il.indexes.map (fun i => i.id)
  | .indexableTable _ => []

/-- State threaded through the `plan.Inspect` traversal of
`assignIndexes`: the running lookup map (nil until the first successful
filter), the last error assigned by the callback, the panic flag, and
the event log. -/
structure InspState where
  indexes : Option LMap
  err : Option GoErr
  pan : Bool
  events : List Event

/-- Mirrors the `plan.Inspect` callback of `assignIndexes`: every
`Filter` node's predicate is run through `getIndexes`; a success is
intersected into the running map (and resets the callback's error), an
error stops the descent into that filter's subtree, and a panic unwinds
the whole traversal. -/
def visitNode (ops : LookupOps) (cat : Catalog) : Node → InspState → InspState
  | n, st =>
    if st.pan then st
    else
      match n with
      | .filter p c =>
        match getIndexes ops cat p with
        | (.ok m, ev) =>
          match st.indexes with
          | some acc =>
            let inter := indexesIntersection ops acc m
            visitNode ops cat c
              { indexes := some inter.1, err := none, pan := false
                events := st.events ++ ev ++ inter.2 }
          | none =>
            visitNode ops cat c
              { indexes := some m, err := none, pan := false, events := st.events ++ ev }
        | (.fail e, ev) => { st with err := some e, events := st.events ++ ev }
        | (.panicked _, ev) => { st with pan := true, events := st.events ++ ev }
      | .cross l r => visitNode ops cat r (visitNode ops cat l st)
      | _ => st

/-- Mirrors the `TransformUp` pass of `assignIndexes`: bottom-up, wrap
each indexable table scan whose name has an entry in the map, deleting
the entry; already wrapped nodes and `IndexableTable` nodes are left
alone. -/
def transformUpA : Node → LMap → Node × LMap
  | .filter p c, m =>
    let r := transformUpA c m
    (.filter p r.1, r.2)
  | .table name ix, m =>
    if ix then
      match mfind m name with
      | some il => (.wrapped il name, mdelete m name)
      | none => (.table name ix, m)
    else (.table name ix, m)
  | .cross l r, m =>
    let a := transformUpA l m
    let b := transformUpA r a.2
    (.cross a.1 b.1, b.2)
  | .wrapped il name, m => (.wrapped il name, m)
  | .indexableTable name, m => (.indexableTable name, m)

/-- Release events for every index still referenced by a lookup map
(the deferred cleanup of `assignIndexes`). -/
def releaseMap : Option LMap → List Event
  | none => []
  | some m => m.foldr (fun p acc => p.2.indexes.map (fun i => Event.release i.id) ++ acc) []

/-- Mirrors `assignIndexes`: inspect every filter, intersect the
per-filter maps, rewrite the plan bottom-up, and let the deferred
cleanup release whatever is left in the map; an error means no plan is
returned (the source returns `nil, err`). -/
def assignIndexes (ops : LookupOps) (cat : Catalog) (n : Node) : Outcome Node × List Event :=
  let st := visitNode ops cat n ⟨none, none, false, []⟩
  if st.pan then (.panicked "runtime panic", st.events ++ releaseMap st.indexes)
  else
    match st.err with
    | some e => (.fail e, st.events ++ releaseMap st.indexes)
    | none =>
      let r := transformUpA n (st.indexes.getD [])
      (.ok r.1, st.events ++ releaseMap (some r.2))

/-- Number of `borrow` events for a given index id. -/
def countBorrows (evs : List Event) (i : Nat) : Nat :=
  (evs.filter (fun e => decide (e = .borrow i))).length

/-- Number of `release` events for a given index id. -/
def countReleases (evs : List Event) (i : Nat) : Nat :=
  (evs.filter (fun e => decide (e = .release i))).length

/- Concrete fixtures used to evaluate the pass on specific inputs. -/

/-- Lookup implementation whose lookups advertise every interface and
always merge. -/
def opsTrue : LookupOps := ⟨fun _ => true, fun _ _ => true, fun _ => true⟩

/-- Lookup implementation advertising no merge interface at all, so no
two lookups are ever mergeable. -/
def opsNever : LookupOps := ⟨fun _ => false, fun _ _ => false, fun _ => false⟩

/-- Lookup implementation for which point gets merge but a union result
refuses further merging: `IsMergeable` answers false on union lookups. -/
def opsUnionStops : LookupOps :=
  ⟨fun _ => true,
   fun a _ => match a with | .union _ _ => false | _ => true,
   fun _ => true⟩

/-- Index with id 1 on column hash 10 of table `t`. -/
def idxA : Index := ⟨1, "t", [10], true, true⟩

/-- Index with id 2 on column hash 20 of table `t`. -/
def idxB : Index := ⟨2, "t", [20], true, true⟩

/-- Index with id 2 on column hash 20 of table `u`. -/
def idxU : Index := ⟨2, "u", [20], true, true⟩

/-- Catalog holding `idxA` and `idxB` (two indexes on table `t`). -/
def catAB : Catalog := ⟨[idxA, idxB]⟩

/-- Catalog holding only `idxA`. -/
def catA : Catalog := ⟨[idxA]⟩

/-- Catalog holding `idxA` on table `t` and `idxU` on table `u`. -/
def catAU : Catalog := ⟨[idxA, idxU]⟩

/-- Column `t.a` with hash 10. -/
def colA : Expr := .col "t" "a" 10

/-- Column `t.b` with hash 20. -/
def colB : Expr := .col "t" "b" 20

/-- Column `u.b` with hash 20. -/
def colUB : Expr := .col "u" "b" 20

/-- Literal 1. -/
def litOne : Expr := .lit (.val (.intV 1))

/-- Literal 2. -/
def litTwo : Expr := .lit (.val (.intV 2))

/-- Point-get lookup `idxA.Get(1)`. -/
def getA : Lookup := .get 1 [.val (.intV 1)]

/-- Entry binding `getA` to its borrowed index. -/
def ilA : indexLookup := ⟨getA, [idxA]⟩

/-- Entry binding `idxB.Get(2)` to its borrowed index. -/
def ilB : indexLookup := ⟨.get 2 [.val (.intV 2)], [idxB]⟩

/-- Plan with two indexable scans of the same table under one filter. -/
def dupPlan : Node :=
  .filter (.eq colA litOne) (.cross (.table "t" true) (.table "t" true))

/-- Result of one `assignIndexes` run on `dupPlan`: only the first scan
is wrapped. -/
def dupPlan1 : Node :=
  .filter (.eq colA litOne) (.cross (.wrapped ilA "t") (.table "t" true))

/-- Result of a second `assignIndexes` run on `dupPlan1`: the second
scan is wrapped as well. -/
def dupPlan2 : Node :=
  .filter (.eq colA litOne) (.cross (.wrapped ilA "t") (.wrapped ilA "t"))

/-- C1.  Borrow conservation fails on the code: in the OR case of
`getIndexes`, when table `t` is present in both branch maps and the two
lookups are not mergeable, the right-hand entry is dropped without any
`ReleaseIndex` call, so index 2 is borrowed (once) but neither released
nor embedded in the returned plan, which embeds only index 1. -/
theorem claimC1_or_drop_leaks :
    assignIndexes opsNever catAB
        (.filter (.orE (.eq colA litOne) (.eq colB litTwo)) (.table "t" true))
      = (.ok (.filter (.orE (.eq colA litOne) (.eq colB litTwo)) (.wrapped ilA "t")),
         [.borrow 1, .borrow 2])
    ∧ countBorrows [Event.borrow 1, Event.borrow 2] 2 = 1
    ∧ countReleases [Event.borrow 1, Event.borrow 2] 2 = 0
    ∧ embeddedIndexIds
        (.filter (.orE (.eq colA litOne) (.eq colB litTwo)) (.wrapped ilA "t")) = [1] := by
  refine ⟨rfl, rfl, rfl, rfl⟩

/-- C2.  Safe degradation under OR fails on the code: in
`t.a = 1 OR u.b = 2` each branch lacks a lookup for the other branch's
table, yet the map returned by `getIndexes` for the whole OR keeps both
one-sided entries instead of dropping them. -/
theorem claimC2_or_keeps_one_sided :
    getIndexes opsTrue catAU (.orE (.eq colA litOne) (.eq colUB litTwo))
      = (.ok [("t", ilA), ("u", ⟨.get 2 [.val (.intV 2)], [idxU]⟩)], [.borrow 1, .borrow 2])
    ∧ mfind [("t", ilA), ("u", ⟨.get 2 [.val (.intV 2)], [idxU]⟩)] "t" = some ilA
    ∧ mfind [("t", ilA), ("u", ⟨.get 2 [.val (.intV 2)], [idxU]⟩)] "u"
        = some ⟨.get 2 [.val (.intV 2)], [idxU]⟩ := by
  refine ⟨rfl, rfl, rfl⟩

/-- C3.  Error atomicity fails on the code: when the right branch of an
OR surfaces `InvalidInRhs`, `getIndexes` returns the error without
releasing the index already borrowed by the left branch, and
`assignIndexes` returns the error with no plan instead of the unmodified
input plan; index 1 is borrowed once and never released. -/
theorem claimC3_error_leaks_left_branch :
    assignIndexes opsTrue catAB
        (.filter (.orE (.eq colA litOne) (.inE colB (.lit (.val (.intV 5)))))
          (.table "t" true))
      = (.fail .invalidInRhs, [.borrow 1, .borrow 2, .release 2])
    ∧ countBorrows [Event.borrow 1, Event.borrow 2, Event.release 2] 1 = 1
    ∧ countReleases [Event.borrow 1, Event.borrow 2, Event.release 2] 1 = 0 := by
  refine ⟨rfl, rfl, rfl⟩

/-- C4, counterexample.  When the pairwise union of IN point-gets fails
mergeability at the third element, `getIndexes` does not keep a partial
`Union(Get(1), Get(2))` entry: it returns the empty map (the entry is
only inserted after the loop) and the deferred cleanup releases the
borrowed index. -/
theorem claimC4_counterexample :
    getIndexes opsUnionStops catA
        (.inE colA (.lit (.tup [.intV 1, .intV 2, .intV 3])))
      = (.ok [], [.borrow 1, .release 1])
    ∧ (getIndexes opsUnionStops catA
        (.inE colA (.lit (.tup [.intV 1, .intV 2, .intV 3])))).1 ≠
        .ok [("t", ⟨.union (.get 1 [.val (.intV 1)]) (.get 1 [.val (.intV 2)]), [idxA]⟩)] := by
  exact ⟨rfl, by decide⟩

/-- C8, counterexample.  On a plan with two indexable scans of the same
table, the first run wraps only the first scan (the map entry is deleted
when consumed), and a second run wraps the second scan, so
`assignIndexes (assignIndexes p)` differs structurally from
`assignIndexes p`. -/
theorem claimC8_counterexample :
    assignIndexes opsTrue catA dupPlan = (.ok dupPlan1, [.borrow 1])
    ∧ assignIndexes opsTrue catA dupPlan1 = (.ok dupPlan2, [.borrow 1])
    ∧ dupPlan1 ≠ dupPlan2 := by
  exact ⟨rfl, rfl, by decide⟩

/-- C4, amended.  For every IN expression with a column-bearing left
side, an evaluable right side evaluating to a tuple, and a matching
catalog index, if the pairwise union loop fails mergeability at any
element then `getIndexes` returns, without error, a map with no entry
for the index's table (the empty map produced by this case) and the
borrowed index is released rather than kept. -/
theorem claimC4_in_early_stop (ops : LookupOps) (cat : Catalog) (l r : Expr)
    (idx : Index) (v0 : Val) (vs : List Val)
    (h1 : isEvaluable l = false) (h2 : isEvaluable r = true)
    (h3 : indexByExpression cat [l] = some idx)
    (h4 : eval r = .ok (.tup (v0 :: vs)))
    (h5 : inUnion ops idx (.get idx.id [.val v0]) vs = none) :
    getIndexes ops cat (.inE l r) = (.ok [], [.borrow idx.id, .release idx.id]) := by
  simp [getIndexes, Expr.size, getIndexesF, h1, h2, h3, h4, h5]

/-- C4, amended, witness: the early stop at the third element of
`t.a IN (1, 2, 3)` yields the empty map and a release. -/
theorem claimC4_in_early_stop_witness :
    getIndexes opsUnionStops catA (.inE colA (.lit (.tup [.intV 1, .intV 2, .intV 3])))
      = (.ok [], [.borrow 1, .release 1]) := by
  exact claimC4_in_early_stop opsUnionStops catA colA (.lit (.tup [.intV 1, .intV 2, .intV 3]))
    idxA (.intV 1) [.intV 2, .intV 3] rfl rfl rfl rfl rfl

/-- C5.  Comparison-to-capability mapping: with the column-bearing side
normalized to the left (`getComparisonIndex` is order-insensitive under
these hypotheses), equality uses `Get`, `>` requires `DescendIndex` and
uses `DescendGreater`, `≥` requires `AscendIndex` and uses
`AscendGreaterOrEqual`, `<` requires `AscendIndex` and uses
`AscendLessThan`, `≤` requires `DescendIndex` and uses
`DescendLessOrEqual`; when the capability is absent the lookup is
`none`, in which case the borrowed index is released and the comparison
contributes no map entry. -/
theorem claimC5_comparison_capability_map (ops : LookupOps) (cat : Catalog) (k : CmpKind)
    (l r : Expr) (idx : Index) (v : EvalV)
    (h1 : isEvaluable l = false) (h2 : isEvaluable r = true)
    (h3 : indexByExpression cat [l] = some idx) (h4 : eval r = .ok v) :
    getComparisonIndex cat k r l = getComparisonIndex cat k l r
    ∧ comparisonIndexLookup .eq idx [v] = some (.get idx.id [v])
    ∧ comparisonIndexLookup .gt idx [v]
        = (if idx.descend then some (.descendGt idx.id [v]) else none)
    ∧ comparisonIndexLookup .gte idx [v]
        = (if idx.ascend then some (.ascendGte idx.id [v]) else none)
    ∧ comparisonIndexLookup .lt idx [v]
        = (if idx.ascend then some (.ascendLt idx.id [v]) else none)
    ∧ comparisonIndexLookup .lte idx [v]
        = (if idx.descend then some (.descendLte idx.id [v]) else none)
    ∧ getIndexes ops cat (mkCmp k l r)
        = (match comparisonIndexLookup k idx [v] with
           | none => (.ok [], [.borrow idx.id, .release idx.id])
           | some lk => (.ok [(idx.table, ⟨lk, [idx]⟩)], [.borrow idx.id])) := by
  refine ⟨?_, rfl, rfl, rfl, rfl, rfl, ?_⟩
  · simp [getComparisonIndex, h1, h2]
  · cases k <;>
      cases hcl : comparisonIndexLookup _ idx [v] <;>
        simp_all [mkCmp, getIndexes, Expr.size, getIndexesF, getIndexesF.cmpCase,
          getComparisonIndex, h1, h2, h3, h4]

/-- C5, witness: `t.a = 1` with index `idxA` produces the point get. -/
theorem claimC5_witness :
    getIndexes opsTrue catA (mkCmp .eq colA litOne)
      = (.ok [("t", ⟨.get 1 [.val (.intV 1)], [idxA]⟩)], [.borrow 1]) := by
  have h := claimC5_comparison_capability_map opsTrue catA .eq colA litOne idxA
    (.val (.intV 1)) rfl rfl rfl rfl
  simpa using h.2.2.2.2.2.2

/-- C6.  BETWEEN lookup construction: with a matching index, a lookup is
produced exactly when the index has both the ascend and the descend
capability and the ascending range is mergeable (in the sense of
`canMergeIndexes`) with the descending range, and it is then their
union; in every other case no map entry is produced and the borrowed
index is released (on the unchecked-`SetOperations` panic path the
release is performed by the deferred cleanup while unwinding). -/
theorem claimC6_between (ops : LookupOps) (cat : Catalog) (bv lo hi : Expr)
    (idx : Index) (u w : EvalV)
    (h1 : isEvaluable bv = false) (h2 : isEvaluable hi = true) (h3 : isEvaluable lo = true)
    (h4 : indexByExpression cat [bv] = some idx)
    (h5 : eval hi = .ok u) (h6 : eval lo = .ok w) :
    (idx.ascend = true → idx.descend = true →
      canMergeIndexes ops (.ascendRange idx.id [w] [u]) (.descendRange idx.id [u] [w]) = true →
      getIndexes ops cat (.between bv lo hi)
        = (.ok [(idx.table,
              ⟨.union (.ascendRange idx.id [w] [u]) (.descendRange idx.id [u] [w]), [idx]⟩)],
           [.borrow idx.id]))
    ∧ (¬(idx.ascend = true ∧ idx.descend = true ∧
          canMergeIndexes ops (.ascendRange idx.id [w] [u]) (.descendRange idx.id [u] [w]) = true) →
        Event.release idx.id ∈ (getIndexes ops cat (.between bv lo hi)).2
        ∧ ∀ m, (getIndexes ops cat (.between bv lo hi)).1 = .ok m → mfind m idx.table = none) := by
  have hkey : getIndexes ops cat (.between bv lo hi)
      = (match betweenIndexLookup ops idx [u] [w] with
         | .ok (some lk) => (.ok [(idx.table, ⟨lk, [idx]⟩)], [.borrow idx.id])
         | .ok none => (.ok [], [.borrow idx.id, .release idx.id])
         | .fail e => (.fail e, [.borrow idx.id, .release idx.id])
         | .panicked s => (.panicked s, [.borrow idx.id, .release idx.id])) := by
    cases hb : betweenIndexLookup ops idx [u] [w] with
    | ok olk =>
      cases olk <;>
        simp [getIndexes, Expr.size, getIndexesF, h1, h2, h3, h4, h5, h6, hb]
    | fail e => simp [getIndexes, Expr.size, getIndexesF, h1, h2, h3, h4, h5, h6, hb]
    | panicked s => simp [getIndexes, Expr.size, getIndexesF, h1, h2, h3, h4, h5, h6, hb]
  constructor
  · intro ha hd hm
    have hm3 := hm
    simp only [canMergeIndexes, Bool.and_eq_true] at hm3
    obtain ⟨⟨hmr, hmw⟩, hso⟩ := hm3
    rw [hkey]
    simp [betweenIndexLookup, ha, hd, hmr, hmw, hso]
  · intro hn
    cases hb : betweenIndexLookup ops idx [u] [w] with
    | ok olk =>
      cases olk with
      | none => rw [hkey]; simp [hb, mfind]
      | some lk =>
        exfalso
        apply hn
        by_cases ha : idx.ascend <;> by_cases hd : idx.descend <;>
          simp [betweenIndexLookup, ha, hd] at hb
        by_cases hmr : ops.isMrg (.ascendRange idx.id [w] [u]) <;>
          by_cases hmw : ops.mergeableWith (.ascendRange idx.id [w] [u])
              (.descendRange idx.id [u] [w]) <;>
            by_cases hso : ops.hasSetOps (.ascendRange idx.id [w] [u]) <;>
              simp_all [canMergeIndexes]
    | fail e => rw [hkey]; simp [hb]
    | panicked s => rw [hkey]; simp [hb]

/-- C6, witness: `t.a BETWEEN 1 AND 2` with `idxA` yields the union of
the ascending and descending ranges. -/
theorem claimC6_witness :
    getIndexes opsTrue catA (.between colA litOne litTwo)
      = (.ok [("t", ⟨.union (.ascendRange 1 [.val (.intV 1)] [.val (.intV 2)])
                           (.descendRange 1 [.val (.intV 2)] [.val (.intV 1)]), [idxA]⟩)],
         [.borrow 1]) := by
  exact (claimC6_between opsTrue catA colA litOne litTwo idxA (.val (.intV 2)) (.val (.intV 1))
    rfl rfl rfl rfl rfl rfl).1 rfl rfl rfl

/-- Unfolding lemma for `mfind` on a cons cell. -/
theorem mfind_cons (k : String) (v : indexLookup) (m : LMap) (t : String) :
    mfind ((k, v) :: m) t = if k = t then some v else mfind m t := rfl

/-- The first loop of `indexesIntersection` transforms each left entry in
place: merged with the right entry when mergeable, kept otherwise. -/
theorem interLoop_mfind (ops : LookupOps) (right : LMap) (l : LMap) (t : String) :
    mfind (interLoop ops right l).1 t
      = (mfind l t).map (fun il =>
          match mfind right t with
          | some il2 =>
            if canMergeIndexes ops il.lookup il2.lookup
            then ⟨.intersection il.lookup il2.lookup, il.indexes ++ il2.indexes⟩ else il
          | none => il) := by
  induction l with
  | nil => simp [interLoop, mfind]
  | cons p rest ih =>
    obtain ⟨k, il⟩ := p
    by_cases hk : k = t
    · subst hk
      cases hr : mfind right k with
      | some il2 =>
        by_cases hm : canMergeIndexes ops il.lookup il2.lookup <;>
          simp [interLoop, hr, hm, mfind]
      | none => simp [interLoop, hr, mfind]
    · cases hr : mfind right k with
      | some il2 =>
        by_cases hm : canMergeIndexes ops il.lookup il2.lookup <;>
          simp [interLoop, hr, hm, mfind, hk, ih]
      | none => simp [interLoop, hr, mfind, hk, ih]

/-- When a table is in both maps with unmergeable lookups, the first
loop of `indexesIntersection` releases every index of the right entry. -/
theorem interLoop_release (ops : LookupOps) (right : LMap) (l : LMap) (t : String)
    (il il2 : indexLookup)
    (hl : mfind l t = some il) (hr : mfind right t = some il2)
    (hm : canMergeIndexes ops il.lookup il2.lookup = false) :
    ∀ i ∈ il2.indexes, Event.release i.id ∈ (interLoop ops right l).2 := by
  induction l with
  | nil => simp [mfind] at hl
  | cons p rest ih =>
    obtain ⟨k, v⟩ := p
    intro i hi
    by_cases hk : k = t
    · subst hk
      rw [mfind_cons, if_pos rfl] at hl
      obtain rfl : v = il := by exact Option.some.inj hl
      simp [interLoop, hr, hm]
      exact Or.inl ⟨i, hi, rfl⟩
    · have hl2 : mfind rest t = some il := by rwa [mfind_cons, if_neg hk] at hl
      have hrec := ih hl2 i hi
      cases hr2 : mfind right k with
      | some w =>
        by_cases hm2 : canMergeIndexes ops v.lookup w.lookup
        · simpa [interLoop, hr2, hm2] using hrec
        · simp [interLoop, hr2, hm2]
          exact Or.inr hrec
      | none => simpa [interLoop, hr2] using hrec

/-- Key preservation: the first loop of `indexesIntersection` keeps
exactly the keys of the left map. -/
theorem interLoop_contains (ops : LookupOps) (right : LMap) (l : LMap) (t : String) :
    mcontains (interLoop ops right l).1 t = mcontains l t := by
  simp [mcontains, interLoop_mfind]

/-- Lookup in an appended map tries the left part first. -/
theorem mfind_append (m1 m2 : LMap) (t : String) :
    mfind (m1 ++ m2) t
      = (match mfind m1 t with | some v => some v | none => mfind m2 t) := by
  induction m1 with
  | nil => simp [mfind]
  | cons p rest ih =>
    obtain ⟨k, v⟩ := p
    by_cases hk : k = t <;> simp [mfind, hk, ih]

/-- Filtering out the keys of a map `a` does not change lookups of keys
absent from `a`. -/
theorem mfind_filter_not_contains (a b : LMap) (t : String) (h : mcontains a t = false) :
    mfind (b.filter (fun p => !mcontains a p.1)) t = mfind b t := by
  induction b with
  | nil => simp [mfind]
  | cons p rest ih =>
    obtain ⟨k, v⟩ := p
    by_cases hk : k = t
    · subst hk
      simp [List.filter_cons, h, mfind, ih]
    · cases hc : mcontains a k <;> simp [List.filter_cons, hc, mfind, hk, ih]

/-- C7.  Intersection policy of `indexesIntersection`: a table present
in both maps gets the `Intersection` of the two lookups with the index
lists concatenated when the lookups are mergeable; otherwise the left
entry is kept and every index of the right entry is released; a table
present in exactly one map passes through unchanged. -/
theorem claimC7_intersection_policy (ops : LookupOps) (l r : LMap) (t : String) :
    (∀ il il2, mfind l t = some il → mfind r t = some il2 →
      (canMergeIndexes ops il.lookup il2.lookup = true →
        mfind (indexesIntersection ops l r).1 t
          = some ⟨.intersection il.lookup il2.lookup, il.indexes ++ il2.indexes⟩)
      ∧ (canMergeIndexes ops il.lookup il2.lookup = false →
        mfind (indexesIntersection ops l r).1 t = some il
        ∧ ∀ i ∈ il2.indexes, Event.release i.id ∈ (indexesIntersection ops l r).2))
    ∧ (mfind r t = none → mfind (indexesIntersection ops l r).1 t = mfind l t)
    ∧ (mfind l t = none → mfind (indexesIntersection ops l r).1 t = mfind r t) := by
  refine ⟨fun il il2 hl hr => ⟨fun hm => ?_, fun hm => ⟨?_, ?_⟩⟩, fun hr => ?_, fun hl => ?_⟩
  · simp [indexesIntersection, mfind_append, interLoop_mfind, hl, hr, hm]
  · simp [indexesIntersection, mfind_append, interLoop_mfind, hl, hr, hm]
  · simpa [indexesIntersection] using interLoop_release ops r l t il il2 hl hr hm
  · cases hl : mfind l t with
    | some il => simp [indexesIntersection, mfind_append, interLoop_mfind, hl, hr]
    | none =>
      have h1 : mfind (interLoop ops r l).1 t = none := by
        rw [interLoop_mfind, hl]; rfl
      have hc : mcontains (interLoop ops r l).1 t = false := by
        simp [mcontains, h1]
      simp [indexesIntersection, mfind_append, h1,
        mfind_filter_not_contains _ _ _ hc, hr]
  · have h1 : mfind (interLoop ops r l).1 t = none := by
      rw [interLoop_mfind, hl]; rfl
    have hc : mcontains (interLoop ops r l).1 t = false := by
      simp [mcontains, h1]
    simp [indexesIntersection, mfind_append, h1,
      mfind_filter_not_contains _ _ _ hc]

/-- C7, witness: with two unmergeable entries for table `t`, the left
entry is kept and the right entry's index 2 is released. -/
theorem claimC7_witness :
    mfind (indexesIntersection opsNever [("t", ilA)] [("t", ilB)]).1 "t" = some ilA
    ∧ Event.release 2 ∈ (indexesIntersection opsNever [("t", ilA)] [("t", ilB)]).2 := by
  have h := ((claimC7_intersection_policy opsNever [("t", ilA)] [("t", ilB)] "t").1
    ilA ilB rfl rfl).2 rfl
  exact ⟨h.1, h.2 idxB (by simp [ilB])⟩

/-- The selection fold never shrinks below its accumulator. -/
theorem selectLongest_acc_le (L : List (List Expr)) :
    ∀ acc : List Expr,
      acc.length ≤
        (L.foldl (fun selected l => if selected.length < l.length then l else selected)
          acc).length := by
  induction L with
  | nil => intro acc; simp
  | cons x rest ih =>
    intro acc
    simp only [List.foldl_cons]
    by_cases h : acc.length < x.length
    · rw [if_pos h]
      exact le_trans (le_of_lt h) (ih x)
    · rw [if_neg h]
      exact ih acc

/-- Every candidate's length is bounded by the selection fold's result. -/
theorem selectLongest_mem_le (L : List (List Expr)) :
    ∀ (acc l : List Expr), l ∈ L →
      l.length ≤
        (L.foldl (fun selected l => if selected.length < l.length then l else selected)
          acc).length := by
  induction L with
  | nil => intro acc l hl; simp at hl
  | cons x rest ih =>
    intro acc l hl
    simp only [List.foldl_cons]
    rcases List.mem_cons.mp hl with rfl | hl2
    · by_cases h : acc.length < l.length
      · rw [if_pos h]
        exact selectLongest_acc_le rest l
      · rw [if_neg h]
        exact le_trans (Nat.le_of_not_lt h) (selectLongest_acc_le rest acc)
    · exact ih _ l hl2

/-- The selection fold either keeps its accumulator or returns the first
candidate that is strictly longer than every earlier candidate and than
the accumulator. -/
theorem selectLongest_first (L : List (List Expr)) :
    ∀ acc : List Expr,
      L.foldl (fun selected l => if selected.length < l.length then l else selected) acc = acc
      ∨ ∃ pre suf,
          L = pre ++
            (L.foldl (fun selected l => if selected.length < l.length then l else selected)
              acc) :: suf
          ∧ (∀ l ∈ pre, l.length <
              (L.foldl (fun selected l => if selected.length < l.length then l else selected)
                acc).length)
          ∧ acc.length <
              (L.foldl (fun selected l => if selected.length < l.length then l else selected)
                acc).length := by
  induction L with
  | nil => intro acc; exact Or.inl rfl
  | cons x rest ih =>
    intro acc
    simp only [List.foldl_cons]
    by_cases h : acc.length < x.length
    · rw [if_pos h]
      rcases ih x with heq | ⟨pre, suf, hdec, hpre, hacc⟩
      · right
        refine ⟨[], rest, by rw [heq]; rfl, by simp, by rw [heq]; exact h⟩
      · right
        refine ⟨x :: pre, suf, by rw [List.cons_append, ← hdec], ?_, lt_trans h hacc⟩
        intro l hl
        rcases List.mem_cons.mp hl with rfl | hl2
        · exact hacc
        · exact hpre l hl2
    · rw [if_neg h]
      rcases ih acc with heq | ⟨pre, suf, hdec, hpre, hacc⟩
      · exact Or.inl heq
      · right
        refine ⟨x :: pre, suf, by rw [List.cons_append, ← hdec], ?_, hacc⟩
        intro l hl
        rcases List.mem_cons.mp hl with rfl | hl2
        · exact lt_of_le_of_lt (Nat.le_of_not_lt h) hacc
        · exact hpre l hl2

/-- C9.  Longest-prefix selection: the sequence selected from the
catalog's candidates is of greatest length, it is the first candidate
attaining that length (every earlier candidate is strictly shorter),
and a group with no candidates (`selectLongest` empty) contributes no
lookup: `mcGroupStep` leaves the result map, the used set and the event
log unchanged. -/
theorem claimC9_longest_selection (exprList : List (List Expr)) :
    (∀ l ∈ exprList, l.length ≤ (selectLongest exprList).length)
    ∧ (selectLongest exprList ≠ [] →
        ∃ pre suf, exprList = pre ++ selectLongest exprList :: suf
          ∧ ∀ l ∈ pre, l.length < (selectLongest exprList).length)
    ∧ (∀ (ops : LookupOps) (cat : Catalog) (table : String) (exps : List columnExpr)
        (res : LMap) (used : List Expr),
        selectLongest (expressionsWithIndexes cat (exps.map (fun e => e.col))) = [] →
        mcGroupStep ops cat table exps res used = (.ok (res, used), [])) := by
  refine ⟨fun l hl => selectLongest_mem_le exprList [] l hl, fun hne => ?_, ?_⟩
  · rcases selectLongest_first exprList [] with heq | ⟨pre, suf, hdec, hpre, _⟩
    · exact absurd heq hne
    · exact ⟨pre, suf, hdec, hpre⟩
  · intro ops cat table exps res used hsel
    simp [mcGroupStep, hsel]

/-- C9, witness: at a two-candidate list the bound of the first conjunct
is discharged concretely, and a group with an empty catalog leaves the
state untouched. -/
theorem claimC9_witness :
    [Expr.other 0].length
        ≤ (selectLongest [[Expr.other 0], [Expr.other 0, Expr.other 1]]).length
    ∧ mcGroupStep opsTrue ⟨[]⟩ "t" [] [] [] = (.ok ([], []), []) := by
  exact ⟨(claimC9_longest_selection [[Expr.other 0], [Expr.other 0, Expr.other 1]]).1 _ (by decide),
         (claimC9_longest_selection []).2.2 opsTrue ⟨[]⟩ "t" [] [] [] rfl⟩

/-- Deleting a key from a map removes exactly that key's bindings. -/
theorem mfind_mdelete (m : LMap) (k q : String) :
    mfind (mdelete m k) q = if k = q then none else mfind m q := by
  induction m with
  | nil => simp [mdelete, mfind]
  | cons p rest ih =>
    obtain ⟨k0, v⟩ := p
    by_cases h0 : k0 = k
    · subst h0
      by_cases hq : k0 = q
      · subst hq; simp [mdelete, mfind, ih]
      · simp [mdelete, mfind, ih, hq]
    · by_cases hq : k0 = q
      · subst hq
        have hkq : ¬k = k0 := fun h => h0 h.symm
        simp [mdelete, mfind, h0, hkq]
      · simp [mdelete, mfind, h0, hq, ih]

/-- The bottom-up rewrite only deletes map entries for tables it wraps,
so lookups of other keys are unchanged. -/
theorem transformUpA_find_outside (n : Node) :
    ∀ (m : LMap) (q : String), q ∉ ixNames n →
      mfind (transformUpA n m).2 q = mfind m q := by
  induction n with
  | filter p c ih =>
    intro m q hq
    simp only [ixNames] at hq
    simpa [transformUpA] using ih m q hq
  | table name ix =>
    intro m q hq
    by_cases hix : ix
    · simp only [ixNames, hix, if_true, List.mem_singleton] at hq
      cases hf : mfind m name with
      | none => simp [transformUpA, hix, hf]
      | some il =>
        simp [transformUpA, hix, hf, mfind_mdelete]
        intro h; exact absurd h.symm hq
    · simp [transformUpA, hix]
  | cross l r ihl ihr =>
    intro m q hq
    simp only [ixNames, List.mem_append] at hq
    push_neg at hq
    simp only [transformUpA]
    rw [ihr _ q hq.2, ihl m q hq.1]
  | wrapped il name => intro m q _; simp [transformUpA]
  | indexableTable name => intro m q _; simp [transformUpA]

/-- After one rewrite with a duplicate-free name list, every indexable
scan left unwrapped has no entry in the original map. -/
theorem transformUpA_unwrapped (n : Node) :
    ∀ (m : LMap) (q : String), (ixNames n).Nodup →
      q ∈ ixNames (transformUpA n m).1 → q ∈ ixNames n ∧ mfind m q = none := by
  induction n with
  | filter p c ih =>
    intro m q hnd hq
    simp only [ixNames] at hnd ⊢
    simp only [transformUpA, ixNames] at hq
    exact ih m q hnd hq
  | table name ix =>
    intro m q hnd hq
    by_cases hix : ix
    · cases hf : mfind m name with
      | some il => simp [transformUpA, hix, hf, ixNames] at hq
      | none =>
        simp only [transformUpA, hix, if_true, hf, ixNames, List.mem_singleton] at hq
        subst hq
        exact ⟨by simp [ixNames, hix], hf⟩
    · simp [transformUpA, hix, ixNames] at hq
  | cross l r ihl ihr =>
    intro m q hnd hq
    rw [ixNames, List.nodup_append] at hnd
    simp only [transformUpA, ixNames, List.mem_append] at hq
    rcases hq with hql | hqr
    · obtain ⟨h1, h2⟩ := ihl m q hnd.1 hql
      exact ⟨by simp [ixNames, h1], h2⟩
    · obtain ⟨h1, h2⟩ := ihr _ q hnd.2.1 hqr
      have hnotl : q ∉ ixNames l := fun hc => hnd.2.2 hc h1
      rw [transformUpA_find_outside l m q hnotl] at h2
      exact ⟨by simp [ixNames, h1], h2⟩
  | wrapped il name => intro m q _ hq; simp [transformUpA, ixNames] at hq
  | indexableTable name => intro m q _ hq; simp [transformUpA, ixNames] at hq

/-- A plan none of whose indexable scans has a map entry is left
untouched by the bottom-up rewrite. -/
theorem transformUpA_stable (n : Node) :
    ∀ m : LMap, (∀ q ∈ ixNames n, mfind m q = none) → transformUpA n m = (n, m) := by
  induction n with
  | filter p c ih =>
    intro m h
    have hc := ih m (by simpa [ixNames] using h)
    simp [transformUpA, hc]
  | table name ix =>
    intro m h
    by_cases hix : ix
    · have hn : mfind m name = none := h name (by simp [ixNames, hix])
      simp [transformUpA, hix, hn]
    · simp [transformUpA, hix]
  | cross l r ihl ihr =>
    intro m h
    simp only [ixNames, List.mem_append] at h
    have hl := ihl m (fun q hq => h q (Or.inl hq))
    have hr := ihr m (fun q hq => h q (Or.inr hq))
    simp [transformUpA, hl, hr]
  | wrapped il name => intro m _; rfl
  | indexableTable name => intro m _; rfl

/-- The `plan.Inspect` traversal sees the same filters before and after
the bottom-up rewrite (wrapping happens below every filter), so the
collected state is identical. -/
theorem visitNode_transform (ops : LookupOps) (cat : Catalog) (n : Node) :
    ∀ (m : LMap) (st : InspState),
      visitNode ops cat (transformUpA n m).1 st = visitNode ops cat n st := by
  induction n with
  | filter p c ih =>
    intro m st
    by_cases hp : st.pan
    · simp [visitNode, transformUpA, hp]
    · rcases hg : getIndexes ops cat p with ⟨oc, ev⟩
      cases oc with
      | ok mm =>
        cases hsi : st.indexes with
        | some acc => simp [visitNode, transformUpA, hp, hg, hsi, ih]
        | none => simp [visitNode, transformUpA, hp, hg, hsi, ih]
      | fail e => simp [visitNode, transformUpA, hp, hg]
      | panicked s => simp [visitNode, transformUpA, hp, hg]
  | table name ix =>
    intro m st
    by_cases hix : ix
    · cases hf : mfind m name with
      | some il => simp [visitNode, transformUpA, hix, hf]
      | none => simp [visitNode, transformUpA, hix, hf]
    · simp [visitNode, transformUpA, hix]
  | cross l r ihl ihr =>
    intro m st
    by_cases hp : st.pan
    · simp [visitNode, transformUpA, hp]
    · simp only [transformUpA]
      rw [visitNode]
      conv_rhs => rw [visitNode]
      simp only [hp, if_false]
      rw [ihl m st, ihr]
  | wrapped il name => intro m st; rfl
  | indexableTable name => intro m st; rfl

/-- C8, amended.  A node already wrapped by the pass (`indexable`
wrapper or `IndexableTable`) is never wrapped again, and on every plan
whose indexable scans bear pairwise distinct table names the rewrite is
idempotent: a second `assignIndexes` run returns the first run's plan
unchanged.  (The counterexample shows idempotence fails when two scans
share a name.) -/
theorem claimC8_idempotent_amended (ops : LookupOps) (cat : Catalog)
    (p p1 : Node) (ev1 : List Event)
    (hnd : (ixNames p).Nodup)
    (h1 : assignIndexes ops cat p = (.ok p1, ev1)) :
    (∃ ev2, assignIndexes ops cat p1 = (.ok p1, ev2))
    ∧ (∀ (il : indexLookup) (nm : String) (m : LMap),
        transformUpA (.wrapped il nm) m = (.wrapped il nm, m))
    ∧ (∀ (nm : String) (m : LMap),
        transformUpA (.indexableTable nm) m = (.indexableTable nm, m)) := by
  refine ⟨?_, fun il nm m => rfl, fun nm m => rfl⟩
  have hst : assignIndexes ops cat p
      = (let st := visitNode ops cat p ⟨none, none, false, []⟩
         if st.pan then (.panicked "runtime panic", st.events ++ releaseMap st.indexes)
         else
           match st.err with
           | some e => (.fail e, st.events ++ releaseMap st.indexes)
           | none =>
             let r := transformUpA p (st.indexes.getD [])
             (.ok r.1, st.events ++ releaseMap (some r.2))) := rfl
  rw [hst] at h1
  set st := visitNode ops cat p ⟨none, none, false, []⟩ with hdefst
  by_cases hp : st.pan
  · rw [if_pos hp] at h1
    simp at h1
  · rw [if_neg hp] at h1
    cases he : st.err with
    | some e => rw [he] at h1; simp at h1
    | none =>
      rw [he] at h1
      have hp1 : (transformUpA p (st.indexes.getD [])).1 = p1 := by
        have := congrArg Prod.fst h1
        simpa using this
      have hstable : transformUpA p1 (st.indexes.getD []) = (p1, st.indexes.getD []) := by
        apply transformUpA_stable
        intro q hq
        rw [← hp1] at hq
        exact (transformUpA_unwrapped p (st.indexes.getD []) q hnd hq).2
      have hvisit : visitNode ops cat p1 ⟨none, none, false, []⟩ = st := by
        rw [← hp1, hdefst]
        exact visitNode_transform ops cat p (st.indexes.getD []) _
      refine ⟨st.events ++ releaseMap (some (st.indexes.getD [])), ?_⟩
      have hass : assignIndexes ops cat p1
          = (let st1 := visitNode ops cat p1 ⟨none, none, false, []⟩
             if st1.pan then (.panicked "runtime panic", st1.events ++ releaseMap st1.indexes)
             else
               match st1.err with
               | some e => (.fail e, st1.events ++ releaseMap st1.indexes)
               | none =>
                 let r := transformUpA p1 (st1.indexes.getD [])
                 (.ok r.1, st1.events ++ releaseMap (some r.2))) := rfl
      rw [hass, hvisit]
      simp only [hp, if_false, he, hstable]
      simp

/-- C8, amended, witness: on the single-table plan the second run
reproduces the first run's plan. -/
theorem claimC8_amended_witness :
    assignIndexes opsTrue catA (.filter (.eq colA litOne) (.wrapped ilA "t"))
      = (.ok (.filter (.eq colA litOne) (.wrapped ilA "t")),
         (assignIndexes opsTrue catA (.filter (.eq colA litOne) (.wrapped ilA "t"))).2) := by
  obtain ⟨ev2, h2⟩ := (claimC8_idempotent_amended opsTrue catA
    (.filter (.eq colA litOne) (.table "t" true))
    (.filter (.eq colA litOne) (.wrapped ilA "t")) [.borrow 1] (by decide) rfl).1
  rw [h2]

/-- C10.  The IN case of `getIndexes` reads `values[0]` without a bounds
check: a right-hand side evaluating to the empty tuple is not rejected
as `InvalidInRhs` (it is a tuple) and the access panics with an
index-out-of-range runtime error instead of staying in bounds. -/
theorem claimC10_empty_tuple_oob :
    getIndexes opsTrue catA (.inE colA (.lit (.tup [])))
      = (.panicked "runtime error: index out of range", [.borrow 1, .release 1]) := by
  rfl

end Gitbase
